import Mathlib

/-!
Verification of the rollout-collection and policy-update engine of the
exaLearnMol repository (src/gcpn/PPO.py and src/dgapn/train.py), as a
shallow embedding in Lean 4.  Machine reals are modelled by `ℚ`; the
opaque neural-network collaborators (graph encoder, MLP heads), which are
external components per the specification, are modelled through their
interface contracts.
-/

namespace ExaLearnMol

/-!
### Discounted-return computation (PPO.py, `PPO_GCPN.update`, lines 211-218)

The source iterates `zip(reversed(memory.rewards), reversed(memory.is_terminals))`
with a running accumulator `discounted_reward`, resets it to 0 whenever
`is_terminal` holds, sets `discounted_reward = reward + gamma * discounted_reward`,
and builds the result in forward order via `rewards.insert(0, discounted_reward)`.
-/

/-- One iteration of the reverse loop in `PPO_GCPN.update`: the state is
`(discounted_reward, returns-so-far)`; on a terminal flag the accumulator is
reset to 0, then `discounted_reward = reward + gamma * acc` and the value is
pushed onto the front of the output list. -/
def discountStep (gamma : ℚ) (st : ℚ × List ℚ) (rt : ℚ × Bool) : ℚ × List ℚ :=
  let acc := if rt.2 then 0 else st.1
  let d := rt.1 + gamma * acc
  (d, d :: st.2)

/-- The Monte-Carlo return computation of `PPO_GCPN.update` (lines 211-218):
fold `discountStep` over the reversed reward/terminal sequence, starting from
accumulator 0 and an empty output list. -/
def discountedReturns (gamma : ℚ) (rewards : List ℚ) (terminals : List Bool) : List ℚ :=
  ((rewards.reverse.zip terminals.reverse).foldl (discountStep gamma) (0, [])).2

/-- The output component of the fold only grows at the front: folding from any
initial output list appends that list behind the output produced from `[]`. -/
theorem foldl_discountStep_snd (gamma : ℚ) (xs : List (ℚ × Bool)) (a : ℚ) (l : List ℚ) :
    xs.foldl (discountStep gamma) (a, l)
      = ((xs.foldl (discountStep gamma) (a, [])).1,
         (xs.foldl (discountStep gamma) (a, [])).2 ++ l) := by
  induction xs generalizing a l with
  | nil => simp
  | cons x xs ih =>
    simp only [List.foldl_cons]
    rw [show discountStep gamma (a, l) x
          = ((discountStep gamma (a, []) x).1, (discountStep gamma (a, []) x).2 ++ l) from rfl]
    rw [ih, ih ((discountStep gamma (a, []) x).1) ((discountStep gamma (a, []) x).2)]
    simp [List.append_assoc]

/-- If the first processed element carries a terminal flag, the initial
accumulator value is irrelevant: the reset erases it. -/
theorem foldl_discountStep_terminal (gamma : ℚ) (r : ℚ) (xs : List (ℚ × Bool))
    (a a' : ℚ) (l : List ℚ) :
    ((r, true) :: xs).foldl (discountStep gamma) (a, l)
      = ((r, true) :: xs).foldl (discountStep gamma) (a', l) := by
  simp [discountStep]

/-- The fold produces one output element per processed input element. -/
theorem foldl_discountStep_length (gamma : ℚ) (xs : List (ℚ × Bool)) (a : ℚ) (l : List ℚ) :
    (xs.foldl (discountStep gamma) (a, l)).2.length = xs.length + l.length := by
  induction xs generalizing a l with
  | nil => simp
  | cons x xs ih =>
    simp only [List.foldl_cons]
    rw [ih]
    simp [discountStep]
    omega

/-- C1.  The discounted-return computation of `PPO_GCPN.update` processes the
reward/terminal sequence in reverse with an accumulator that is reset exactly
at terminal flags, assembling returns in forward order.  The accumulator never
leaks across a terminal boundary: if a block of steps ends with a terminal
flag, the returns of the whole sequence decompose into the returns of the two
blocks computed independently.  One return is produced per step, and on
rewards `[0,0,5]`, terminals `[false,false,true]`, `gamma = 9/10` the returns
are `[4.05, 4.5, 5.0]`. -/
theorem c1_discounted_returns (gamma : ℚ) (r1 r2 : List ℚ) (t1 t2 : List Bool)
    (h1 : r1.length = t1.length) (h2 : r2.length = t2.length)
    (hne : r1 ≠ []) (hlast : t1.getLast? = some true) :
    discountedReturns gamma (r1 ++ r2) (t1 ++ t2)
      = discountedReturns gamma r1 t1 ++ discountedReturns gamma r2 t2
    ∧ (discountedReturns gamma r1 t1).length = r1.length
    ∧ discountedReturns (9/10) [0, 0, 5] [false, false, true] = [81/20, 9/2, 5] := by
  refine ⟨?_, ?_, ?_⟩
  · have hrev : (r1 ++ r2).reverse.zip (t1 ++ t2).reverse
        = (r2.reverse.zip t2.reverse) ++ (r1.reverse.zip t1.reverse) := by
      rw [List.reverse_append, List.reverse_append]
      exact List.zip_append (by simp [h2])
    have hh : t1.reverse.head? = some true := by rw [List.head?_reverse]; exact hlast
    have ht1 : ∃ ts, t1.reverse = true :: ts := by
      cases h : t1.reverse with
      | nil => rw [h] at hh; simp at hh
      | cons b ts =>
        rw [h] at hh
        simp at hh
        exact ⟨ts, by rw [hh]⟩
    obtain ⟨ts, ht1⟩ := ht1
    have hr1 : ∃ x xs, r1.reverse = x :: xs := by
      cases h : r1.reverse with
      | nil => exact absurd (by simpa using congrArg List.reverse h) hne
      | cons x xs => exact ⟨x, xs, rfl⟩
    obtain ⟨x, xs, hr1⟩ := hr1
    unfold discountedReturns
    rw [hrev, List.foldl_append]
    set s2 := (r2.reverse.zip t2.reverse).foldl (discountStep gamma) ((0 : ℚ), ([] : List ℚ))
      with hs2
    have hzip1 : r1.reverse.zip t1.reverse = (x, true) :: xs.zip ts := by
      rw [hr1, ht1]; rfl
    calc ((r1.reverse.zip t1.reverse).foldl (discountStep gamma) (s2.1, s2.2)).2
        = ((r1.reverse.zip t1.reverse).foldl (discountStep gamma) ((0 : ℚ), s2.2)).2 := by
          rw [hzip1, foldl_discountStep_terminal gamma x (xs.zip ts) s2.1 0 s2.2]
      _ = ((r1.reverse.zip t1.reverse).foldl (discountStep gamma) ((0 : ℚ), [])).2 ++ s2.2 := by
          rw [foldl_discountStep_snd]
  · unfold discountedReturns
    rw [foldl_discountStep_length]
    simp [h1]
  · norm_num [discountedReturns, discountStep]

/-- Closed instance of `c1_discounted_returns` at `gamma = 9/10`,
`r1 = [0,0,5]`, `t1 = [false,false,true]`, `r2 = [1]`, `t2 = [false]`. -/
theorem c1_discounted_returns_witness :
    discountedReturns (9/10) ([0, 0, 5] ++ [1]) ([false, false, true] ++ [false])
      = discountedReturns (9/10) [0, 0, 5] [false, false, true]
          ++ discountedReturns (9/10) [1] [false]
    ∧ (discountedReturns (9/10) [0, 0, 5] [false, false, true]).length
        = ([0, 0, 5] : List ℚ).length
    ∧ discountedReturns (9/10) [0, 0, 5] [false, false, true] = [81/20, 9/2, 5] :=
  c1_discounted_returns (9/10) [0, 0, 5] [1] [false, false, true] [false]
    rfl rfl (by simp) rfl

/-!
### Clipped surrogate loss (PPO.py, `PPO_GCPN.update`, lines 247-266)

Per dimension `r` of `ratios.T` the source computes `surr1 = r * advantages`,
`surr2 = torch.clamp(r, 1 - eps_clip, 1 + eps_clip) * advantages` and
`l = -torch.min(surr1, surr2)`; the per-dimension losses are stacked and
summed (`torch.stack(loss, 0).sum(0)`) and the batch is averaged
(`loss.mean()`).
-/

/-- `torch.clamp(x, lo, hi)` on rationals. -/
def clampQ (x lo hi : ℚ) : ℚ := min (max x lo) hi

/-- The scalar clipped-surrogate loss for one ratio channel and one sample:
`-min(r * adv, clamp(r, 1 - eps, 1 + eps) * adv)`. -/
def surrElem (eps r adv : ℚ) : ℚ := -(min (r * adv) (clampQ r (1 - eps) (1 + eps) * adv))

/-- One pass of the `for r in ratios.T` loop body (lines 250-253): the
per-sample loss vector of a single ratio channel. -/
def surrLossPerDim (eps : ℚ) (r advantages : List ℚ) : List ℚ :=
  List.zipWith (fun ri a => surrElem eps ri a) r advantages

/-- `torch.stack(loss, 0).sum(0)` (line 262): elementwise sum of the
per-dimension loss vectors over a batch of size `n`. -/
def sumLossDims (n : Nat) (ls : List (List ℚ)) : List ℚ :=
  ls.foldl (List.zipWith (· + ·)) (List.replicate n 0)

/-- `.mean()` over the batch (line 266). -/
def meanQ (l : List ℚ) : ℚ := l.sum / l.length

/-- Summing an elementwise sum of two equal-length lists gives the sum of
their sums. -/
theorem sum_zipWith_add (l1 l2 : List ℚ) (h : l1.length = l2.length) :
    (List.zipWith (· + ·) l1 l2).sum = l1.sum + l2.sum := by
  induction l1 generalizing l2 with
  | nil => cases l2 <;> simp_all
  | cons x xs ih =>
    cases l2 with
    | nil => simp at h
    | cons y ys =>
      simp only [List.zipWith_cons_cons, List.sum_cons]
      rw [ih ys (by simpa using h)]
      ring

/-- Total and length of the elementwise dimension sum. -/
theorem sumLossDims_spec (n : Nat) (ls : List (List ℚ)) (acc : List ℚ)
    (hacc : acc.length = n) (h : ∀ l ∈ ls, l.length = n) :
    (ls.foldl (List.zipWith (· + ·)) acc).sum = acc.sum + (ls.map List.sum).sum
    ∧ (ls.foldl (List.zipWith (· + ·)) acc).length = n := by
  induction ls generalizing acc with
  | nil => simp [hacc]
  | cons l ls ih =>
    have hl : l.length = n := h l (by simp)
    have hlen1 : (List.zipWith (· + ·) acc l).length = n := by
      simp [hacc, hl]
    have hrec := ih (List.zipWith (· + ·) acc l) hlen1 (fun x hx => h x (by simp [hx]))
    simp only [List.foldl_cons, List.map_cons, List.sum_cons]
    refine ⟨?_, hrec.2⟩
    rw [hrec.1, sum_zipWith_add acc l (by rw [hacc, hl])]
    ring

/-- C4.  Clipped surrogate loss of `PPO_GCPN.update`: at ratio 1 the
per-sample loss is `-advantage`; for a ratio outside `[1 - eps, 1 + eps]`
with matching-sign advantage the clipped branch is selected and the loss
differs from the ratio-1 loss by exactly `eps * |advantage|`; the
per-dimension losses (already negated) are summed across dimensions and
averaged across the batch. -/
theorem c4_clipped_surrogate (eps r adv : ℚ) (heps : 0 ≤ eps) :
    (surrElem eps 1 adv = -adv)
    ∧ (1 + eps < r → 0 < adv →
        surrElem eps r adv = -(clampQ r (1 - eps) (1 + eps) * adv)
        ∧ surrElem eps r adv = -((1 + eps) * adv)
        ∧ |surrElem eps r adv - (-adv)| = eps * |adv|)
    ∧ (r < 1 - eps → adv < 0 →
        surrElem eps r adv = -(clampQ r (1 - eps) (1 + eps) * adv)
        ∧ surrElem eps r adv = -((1 - eps) * adv)
        ∧ |surrElem eps r adv - (-adv)| = eps * |adv|)
    ∧ (∀ (ratiosT : List (List ℚ)) (advs : List ℚ),
        (∀ l ∈ ratiosT, l.length = advs.length) →
        meanQ (sumLossDims advs.length (ratiosT.map (fun rr => surrLossPerDim eps rr advs)))
          = (ratiosT.map (fun rr => (surrLossPerDim eps rr advs).sum)).sum / advs.length) := by
  refine ⟨?_, ?_, ?_, ?_⟩
  · have hcl : clampQ 1 (1 - eps) (1 + eps) = 1 := by
      unfold clampQ
      rw [max_eq_left (by linarith), min_eq_left (by linarith)]
    simp [surrElem, hcl]
  · intro hr hadv
    have hcl : clampQ r (1 - eps) (1 + eps) = 1 + eps := by
      unfold clampQ
      rw [max_eq_left (by linarith), min_eq_right (by linarith)]
    have hmin : min (r * adv) ((1 + eps) * adv) = (1 + eps) * adv := by
      apply min_eq_right
      nlinarith
    refine ⟨by rw [surrElem, hcl, hmin], by rw [surrElem, hcl, hmin], ?_⟩
    rw [surrElem, hcl, hmin]
    rw [abs_of_pos hadv]
    rw [show -((1 + eps) * adv) - -adv = -(eps * adv) by ring]
    rw [abs_neg, abs_of_nonneg (by positivity)]
  · intro hr hadv
    have hcl : clampQ r (1 - eps) (1 + eps) = 1 - eps := by
      unfold clampQ
      rw [max_eq_right (by linarith), min_eq_left (by linarith)]
    have hmin : min (r * adv) ((1 - eps) * adv) = (1 - eps) * adv := by
      apply min_eq_right
      nlinarith
    refine ⟨by rw [surrElem, hcl, hmin], by rw [surrElem, hcl, hmin], ?_⟩
    rw [surrElem, hcl, hmin]
    rw [abs_of_neg hadv]
    rw [show -((1 - eps) * adv) - -adv = eps * adv by ring]
    rw [abs_of_nonpos (by nlinarith)]
    ring
  · intro ratiosT advs hlen
    have hlens : ∀ l ∈ ratiosT.map (fun rr => surrLossPerDim eps rr advs),
        l.length = advs.length := by
      intro l hl
      simp only [List.mem_map] at hl
      obtain ⟨rr, hrr, hleq⟩ := hl
      subst hleq
      simp [surrLossPerDim, hlen rr hrr]
    have hsp := sumLossDims_spec advs.length (ratiosT.map (fun rr => surrLossPerDim eps rr advs))
      (List.replicate advs.length 0) (by simp) hlens
    unfold meanQ sumLossDims
    rw [hsp.1, hsp.2]
    simp [List.map_map]
    rfl

/-- Closed instance of `c4_clipped_surrogate` at `eps = 1/5`, `r = 2`,
`adv = 3`. -/
theorem c4_clipped_surrogate_witness :
    (surrElem (1/5) 1 3 = -3)
    ∧ (1 + 1/5 < (2 : ℚ) → 0 < (3 : ℚ) →
        surrElem (1/5) 2 3 = -(clampQ 2 (1 - 1/5) (1 + 1/5) * 3)
        ∧ surrElem (1/5) 2 3 = -((1 + 1/5) * 3)
        ∧ |surrElem (1/5) 2 3 - -3| = 1/5 * |(3 : ℚ)|)
    ∧ ((2 : ℚ) < 1 - 1/5 → (3 : ℚ) < 0 →
        surrElem (1/5) 2 3 = -(clampQ 2 (1 - 1/5) (1 + 1/5) * 3)
        ∧ surrElem (1/5) 2 3 = -((1 - 1/5) * 3)
        ∧ |surrElem (1/5) 2 3 - -3| = 1/5 * |(3 : ℚ)|)
    ∧ (∀ (ratiosT : List (List ℚ)) (advs : List ℚ),
        (∀ l ∈ ratiosT, l.length = advs.length) →
        meanQ (sumLossDims advs.length (ratiosT.map (fun rr => surrLossPerDim (1/5) rr advs)))
          = (ratiosT.map (fun rr => (surrLossPerDim (1/5) rr advs).sum)).sum / advs.length) :=
  c4_clipped_surrogate (1/5) 2 3 (by norm_num)

/-!
### Update atomicity (PPO.py, `PPO_GCPN.update`, lines 238-288)

The K-epoch loop (lines 238-285) re-evaluates `self.policy`, forms the loss
from the precomputed detached `old_logprobs`, and calls
`self.optimizer.step()`, which mutates only the live policy parameters and
the optimizer state; `self.policy_old` is not read or written inside the
loop.  Line 288 then performs the single copy
`self.policy_old.load_state_dict(self.policy.state_dict())`.
-/

/-- Engine state of `PPO_GCPN`: live policy parameters, the frozen old
snapshot, and the optimizer state.  `P` and `O` are the (opaque) parameter
and optimizer-state spaces of the black-box networks. -/
structure PPOCore (P O : Type) where
  policy : P
  policy_old : P
  optim : O

/-- One epoch of the K-epoch loop: the epoch body `epoch` (loss evaluation
plus `optimizer.step()`) reads and writes only the live parameters and the
optimizer state; `policy_old` is carried through untouched, mirroring that
lines 238-285 contain no access to `self.policy_old`. -/
def ppoEpoch {P O : Type} (epoch : P → O → P × O) (s : PPOCore P O) : PPOCore P O :=
  { policy := (epoch s.policy s.optim).1
    policy_old := s.policy_old
    optim := (epoch s.policy s.optim).2 }

/-- `PPO_GCPN.update` after return computation: run the K epochs, then copy
the live parameters into the frozen snapshot (line 288), exactly once, at
the end. -/
def ppoUpdate {P O : Type} (epoch : P → O → P × O) (K : Nat) (s : PPOCore P O) : PPOCore P O :=
  let s1 := (ppoEpoch epoch)^[K] s
  { policy := s1.policy
    policy_old := s1.policy
    optim := s1.optim }

/-- Iterating epochs never changes the frozen snapshot. -/
theorem ppoEpoch_iterate_old {P O : Type} (epoch : P → O → P × O) (k : Nat) (s : PPOCore P O) :
    ((ppoEpoch epoch)^[k] s).policy_old = s.policy_old := by
  induction k with
  | zero => rfl
  | succ n ih => rw [Function.iterate_succ_apply', ppoEpoch, ih]

/-- C3.  Update atomicity of `PPO_GCPN.update`: the frozen snapshot is
unchanged after any number of intermediate epochs, it equals the live
parameters immediately after the update cycle, and across the whole cycle
the snapshot's trace is constant (the copy happens only at the end, never
mid-update). -/
theorem c3_update_atomicity {P O : Type} (epoch : P → O → P × O) (K : Nat) (s : PPOCore P O) :
    (∀ k, ((ppoEpoch epoch)^[k] s).policy_old = s.policy_old)
    ∧ (ppoUpdate epoch K s).policy_old = (ppoUpdate epoch K s).policy
    ∧ ((List.range (K + 1)).map (fun k => ((ppoEpoch epoch)^[k] s).policy_old)
        = List.replicate (K + 1) s.policy_old) := by
  refine ⟨fun k => ppoEpoch_iterate_old epoch k s, rfl, ?_⟩
  rw [List.eq_replicate_iff]
  constructor
  · simp
  · intro b hb
    simp only [List.mem_map, List.mem_range] at hb
    obtain ⟨k, _, hk⟩ := hb
    rw [← hk, ppoEpoch_iterate_old]

/-!
### Memory bookkeeping of the serial GCPN loop (PPO.py, `Memory`,
`ActorCriticGCPN.act`, `train_ppo`)

`ActorCriticGCPN.act` (lines 99-113) appends one element to `states`,
`actions` and `logprobs`; the loop body of `train_ppo` (lines 512-513)
appends one element to `rewards` and `is_terminals` in the same timestep.
Per the specification's environment contract
(`step(action) -> (state, reward, done, info)`) the environment does not
mutate the memory.  `Memory.clear_memory` (lines 39-44) empties all five
lists.
-/

/-- The `Memory` buffer of PPO.py (lines 31-37): five parallel lists.
`S` is the state representation and `A` the action representation. -/
structure Memory (S A : Type) where
  actions : List A
  states : List S
  logprobs : List ℚ
  rewards : List ℚ
  is_terminals : List Bool

/-- `Memory.clear_memory` (lines 39-44): delete the contents of all five
lists. -/
def clear_memory {S A : Type} (_ : Memory S A) : Memory S A := ⟨[], [], [], [], []⟩

/-- The memory writes of `ActorCriticGCPN.act` (lines 99-113): one state,
one action and one log-probability are appended (in either the CReM or the
plain branch). -/
def actAppend {S A : Type} (m : Memory S A) (state : S) (action : A) (logprob : ℚ) :
    Memory S A :=
  { m with states := m.states ++ [state]
           actions := m.actions ++ [action]
           logprobs := m.logprobs ++ [logprob] }

/-- One timestep of the `train_ppo` loop as seen by the memory: the
`select_action` call appends via `actAppend`, then lines 512-513 append the
reward and the terminal flag.  A step datum is
`(state, action, logprob, reward, done)`. -/
def timestepAppend {S A : Type} (m : Memory S A) (step : S × A × ℚ × ℚ × Bool) :
    Memory S A :=
  let m1 := actAppend m step.1 step.2.1 step.2.2.1
  { m1 with rewards := m1.rewards ++ [step.2.2.2.1]
            is_terminals := m1.is_terminals ++ [step.2.2.2.2] }

/-- All five lists of a memory have equal length. -/
def balanced {S A : Type} (m : Memory S A) : Prop :=
  m.states.length = m.actions.length ∧ m.logprobs.length = m.actions.length
  ∧ m.rewards.length = m.actions.length ∧ m.is_terminals.length = m.actions.length

/-- C10.  Every timestep of the serial GCPN training loop appends exactly one
element to each of the five memory lists, so any run of timesteps starting
from a balanced memory leaves it balanced with one entry added per timestep,
and `clear_memory` empties all five lists. -/
theorem c10_memory_balance {S A : Type} (m : Memory S A)
    (steps : List (S × A × ℚ × ℚ × Bool)) (hbal : balanced m) :
    balanced (steps.foldl timestepAppend m)
    ∧ (steps.foldl timestepAppend m).actions.length = m.actions.length + steps.length
    ∧ clear_memory (steps.foldl timestepAppend m) = (⟨[], [], [], [], []⟩ : Memory S A) := by
  refine ⟨?_, ?_, rfl⟩ <;>
  · induction steps generalizing m with
    | nil => simpa [balanced] using hbal
    | cons x xs ih =>
      simp only [List.foldl_cons, List.length_cons]
      have hb1 : balanced (timestepAppend m x) := by
        obtain ⟨hs, hl, hr, ht⟩ := hbal
        simp [balanced, timestepAppend, actAppend, hs, hl, hr, ht]
      first
      | exact ih (timestepAppend m x) hb1
      | · rw [ih (timestepAppend m x) hb1]
          simp [timestepAppend, actAppend]
          omega

/-- Closed instance of `c10_memory_balance` on an empty memory and a single
timestep. -/
theorem c10_memory_balance_witness :
    balanced ([((1 : ℚ), (2 : ℤ), 1/2, 1, true)].foldl timestepAppend
        (⟨[], [], [], [], []⟩ : Memory ℚ ℤ))
    ∧ ([((1 : ℚ), (2 : ℤ), 1/2, 1, true)].foldl timestepAppend
        (⟨[], [], [], [], []⟩ : Memory ℚ ℤ)).actions.length
      = (⟨[], [], [], [], []⟩ : Memory ℚ ℤ).actions.length + 1
    ∧ clear_memory ([((1 : ℚ), (2 : ℤ), 1/2, 1, true)].foldl timestepAppend
        (⟨[], [], [], [], []⟩ : Memory ℚ ℤ)) = (⟨[], [], [], [], []⟩ : Memory ℚ ℤ) :=
  c10_memory_balance (⟨[], [], [], [], []⟩ : Memory ℚ ℤ)
    [((1 : ℚ), (2 : ℤ), 1/2, 1, true)] ⟨rfl, rfl, rfl, rfl⟩

/-!
### Non-finite loss handling (PPO.py, `PPO_GCPN.update`, lines 250-261)

Inside the per-dimension loop the source runs `if torch.isnan(l).any():`
followed by diagnostic prints and `exit()`.  Only NaN is tested
(`torch.isnan` is false on infinities) and only the per-dimension surrogate
losses `l` are tested (the entropy, value and adversarial terms are not).
-/

/-- IEEE-style loss values: finite rationals, the two infinities, and NaN. -/
inductive FVal where
  | fin (q : ℚ)
  | posInf
  | negInf
  | nan
deriving DecidableEq

/-- `torch.isnan` on a single value. -/
def FVal.isNaN : FVal → Bool
  | nan => true
  | _ => false

/-- `torch.isfinite` on a single value. -/
def FVal.isFinite : FVal → Bool
  | fin _ => true
  | _ => false

/-- The `for r in ratios.T` loop of `PPO_GCPN.update` restricted to its
NaN guard (lines 250-261): each per-dimension loss vector `l` is checked
with `torch.isnan(l).any()`; on a NaN the process prints the diagnostic and
calls `exit()`, modelled as `Except.error`; otherwise the loss is appended
and the loop continues. -/
def runDimLossLoop : List (List FVal) → Except String (List (List FVal))
  | [] => Except.ok []
  | l :: rest =>
    if l.any FVal.isNaN then Except.error "found nan in loss"
    else
      match runDimLossLoop rest with
      | Except.error e => Except.error e
      | Except.ok ls => Except.ok (l :: ls)

/-- C6 counterexample.  A positive-infinity loss term is non-finite, yet the
update loop of `PPO_GCPN.update` does not halt on it: only NaN is checked,
so the claim that the engine halts on any non-finite loss term is false at
the input `[[+∞]]`. -/
theorem c6_nonfinite_counterexample :
    FVal.posInf.isFinite = false
    ∧ runDimLossLoop [[FVal.posInf]] = Except.ok [[FVal.posInf]] :=
  ⟨rfl, rfl⟩

/-- C6 amended.  The update loop of `PPO_GCPN.update` halts the cycle (with
the fatal diagnostic `"found nan in loss"`) exactly when some per-dimension
surrogate loss vector contains a NaN entry; infinities, and loss terms other
than the per-dimension surrogate losses, are not checked. -/
theorem c6_nan_halt (losses : List (List FVal)) :
    ((∃ e, runDimLossLoop losses = Except.error e)
      ↔ ∃ l ∈ losses, ∃ v ∈ l, FVal.isNaN v = true)
    ∧ (∀ e, runDimLossLoop losses = Except.error e → e = "found nan in loss") := by
  induction losses with
  | nil =>
    refine ⟨?_, ?_⟩
    · simp [runDimLossLoop]
    · intro e he
      simp [runDimLossLoop] at he
  | cons l rest ih =>
    by_cases hl : l.any FVal.isNaN
    · refine ⟨?_, ?_⟩
      · simp only [runDimLossLoop, if_pos hl]
        simp only [List.any_eq_true] at hl
        obtain ⟨v, hv, hnan⟩ := hl
        exact ⟨fun _ => ⟨l, by simp, v, hv, hnan⟩, fun _ => ⟨_, rfl⟩⟩
      · intro e he
        simp only [runDimLossLoop, if_pos hl] at he
        injection he with h
        exact h.symm
    · refine ⟨?_, ?_⟩
      · simp only [runDimLossLoop, if_neg hl]
        cases hr : runDimLossLoop rest with
        | error e =>
          simp only []
          constructor
          · intro _
            obtain ⟨ll, hll, hv⟩ := (ih.1).mp ⟨e, hr⟩
            exact ⟨ll, by simp [hll], hv⟩
          · intro _
            exact ⟨e, rfl⟩
        | ok ls =>
          simp only []
          constructor
          · rintro ⟨e, he⟩
            exact absurd he (by simp)
          · rintro ⟨ll, hll, v, hv, hnan⟩
            rcases List.mem_cons.mp hll with hc | hc
            · subst hc
              exact absurd (List.any_eq_true.mpr ⟨v, hv, hnan⟩) (by simp [hl])
            · obtain ⟨e, he⟩ := (ih.1).mpr ⟨ll, hc, v, hv, hnan⟩
              rw [he] at hr
              exact absurd hr (by simp)
      · intro e he
        simp only [runDimLossLoop, if_neg hl] at he
        cases hr : runDimLossLoop rest with
        | error e2 =>
          rw [hr] at he
          simp at he
          subst he
          exact ih.2 e2 hr
        | ok ls =>
          rw [hr] at he
          simp at he

/-!
### Discriminator-only update (PPO.py, `PPO_GCPN.update_disc`, lines 290-306,
`ActorCriticGCPN.evaluate_disc`, lines 130-134, optimizer at line 182)

`update_disc` computes `fidelity = self.policy.evaluate_disc(truth)`, where
`evaluate_disc` obtains the state embedding `X_agg` from `self.actor.evaluate`
and applies `self.discriminator`; the weighted BCE loss is backpropagated and
`self.optimizer.step()` is taken, where the Adam optimizer of line 182 ranges
over `self.policy.parameters()`, i.e. over actor, critic and discriminator.

Modelled from the spec: the actor, critic and discriminator network bodies
(src/gcpn/gcpn_policy.py and src/gcpn/MLP.py are not under src/) are opaque
collaborators; they are instantiated minimally as one-parameter linear maps
`X_agg = actor * x`, `fidelity = disc * X_agg`, the critic head being absent
from `evaluate_disc`'s computation graph.  Autograd is modelled by the chain
rule; `sig` stands for the sigmoid of the fidelity logit (so the upstream
derivative of the weighted BCE-with-logits toward target 1 is
`alpha * w * (sig - 1)`); the Adam step from fresh optimizer state is
`p - lr * g / (|g| + eps)` (first-step bias correction makes the square root
of the second moment equal `|g|` exactly).
-/

/-- Parameters of the three heads of `ActorCriticGCPN` (one scalar per head
in the minimal instantiation). -/
structure DiscParams where
  actor : ℚ
  critic : ℚ
  disc : ℚ
deriving DecidableEq

/-- A first Adam step from fresh optimizer state on one parameter with
gradient `g`. -/
def adamStepFresh (lr eps g p : ℚ) : ℚ := p - lr * g / (|g| + eps)

/-- `PPO_GCPN.update_disc` on the minimal instantiation: the fidelity logit
`disc * (actor * x)` is pushed toward 1 by a weighted BCE; backpropagation
produces gradients on the actor and discriminator parameters (the critic is
not in the graph of `evaluate_disc`), and one optimizer step over all three
heads is taken. -/
def update_disc (lr eps alpha w x sig : ℚ) (p : DiscParams) : DiscParams :=
  let xAgg := p.actor * x
  let dLdf := alpha * w * (sig - 1)
  let gActor := dLdf * p.disc * x
  let gDisc := dLdf * xAgg
  let gCritic : ℚ := 0
  { actor := adamStepFresh lr eps gActor p.actor
    critic := adamStepFresh lr eps gCritic p.critic
    disc := adamStepFresh lr eps gDisc p.disc }

/-- C8 counterexample.  At `lr = 1/100`, `eps = 10⁻⁸`, `alpha = w = x = 1`,
actor 0, critic 3, discriminator 1, the fidelity logit is 0, its sigmoid is
exactly 1/2, and the discriminator-only update changes the actor parameter:
the claim that it leaves the actor unchanged is false. -/
theorem c8_disc_update_counterexample :
    (update_disc (1/100) (1/100000000) 1 1 1 (1/2) ⟨0, 3, 1⟩).actor
      ≠ (⟨0, 3, 1⟩ : DiscParams).actor := by
  have h : |(1 : ℚ)/2| = 1/2 := abs_of_pos (by norm_num)
  norm_num [update_disc, adamStepFresh, h]

/-- C8 amended.  The discriminator-only update leaves the critic unchanged
(its gradient is zero, since `evaluate_disc` never touches the critic head),
but it modifies the actor parameter whenever the backpropagated gradient
through the shared embedding is nonzero — it is not restricted to the
discriminator head. -/
theorem c8_disc_update_amended (lr eps alpha w x sig : ℚ) (p : DiscParams)
    (hlr : lr ≠ 0) (heps : 0 < eps)
    (hg : alpha * w * (sig - 1) * p.disc * x ≠ 0) :
    (update_disc lr eps alpha w x sig p).critic = p.critic
    ∧ (update_disc lr eps alpha w x sig p).actor ≠ p.actor := by
  constructor
  · simp [update_disc, adamStepFresh]
  · simp only [update_disc, adamStepFresh]
    intro hcontra
    have hden : |alpha * w * (sig - 1) * p.disc * x| + eps ≠ 0 := by positivity
    have hzero : lr * (alpha * w * (sig - 1) * p.disc * x)
        / (|alpha * w * (sig - 1) * p.disc * x| + eps) = 0 := by
      linarith [sub_eq_self.mp hcontra]
    rcases mul_eq_zero.mp ((div_eq_zero_iff.mp hzero).resolve_right hden) with hzl | hzg
    · exact hlr hzl
    · exact hg hzg

/-- Closed instance of `c8_disc_update_amended` at `lr = 1/100`, `eps = 1/2`,
`alpha = w = x = 1`, `sig = 1/2`, parameters `(5, 3, 2)`. -/
theorem c8_disc_update_amended_witness :
    (update_disc (1/100) (1/2) 1 1 1 (1/2) ⟨5, 3, 2⟩).critic
      = (⟨5, 3, 2⟩ : DiscParams).critic
    ∧ (update_disc (1/100) (1/2) 1 1 1 (1/2) ⟨5, 3, 2⟩).actor
      ≠ (⟨5, 3, 2⟩ : DiscParams).actor :=
  c8_disc_update_amended (1/100) (1/2) 1 1 1 (1/2) ⟨5, 3, 2⟩
    (by norm_num) (by norm_num) (by norm_num)

/-!
### Weighted BCE weights of `update_disc` (PPO.py, line 295)

The source computes
`weight = F.softmin(torch.Tensor(truth_score)) * torch.Tensor(len(truth_score))`.
`torch.Tensor(n)` constructs an *uninitialized* tensor of shape `(n,)` (the
intended scalar factor would be `len(truth_score)` itself), so the softmin
weights are multiplied elementwise by arbitrary memory contents `mem`.  The
softmin itself is kept abstract (it involves `exp`).
-/

/-- The weight vector of `update_disc` (line 295): the softmin of the
reference scores, multiplied elementwise by the contents `mem` of the
uninitialized tensor `torch.Tensor(len(scores))`. -/
def discWeights (softmin : List ℚ → List ℚ) (scores mem : List ℚ) : List ℚ :=
  List.zipWith (· * ·) (softmin scores) mem

/-- C9.  For any softmin whatsoever (any positive length-2 output on scores
`[1, 2]`), when the uninitialized tensor happens to hold `[0, 1]` the
lower-score example receives the *smaller* weight — the weights are not the
softmin-derived deterministic function of the scores that the claim (and
the evident intent of the code) describes. -/
theorem c9_softmin_weight_bug (softmin : List ℚ → List ℚ)
    (hlen : (softmin [1, 2]).length = 2)
    (hpos : ∀ w ∈ softmin [1, 2], 0 < w) :
    (discWeights softmin [1, 2] [0, 1]).getD 0 0
      < (discWeights softmin [1, 2] [0, 1]).getD 1 0 := by
  rcases hl : softmin [1, 2] with _ | ⟨w0, _ | ⟨w1, tl⟩⟩
  · rw [hl] at hlen; simp at hlen
  · rw [hl] at hlen; simp at hlen
  · have htl : tl = [] := by
      rw [hl] at hlen; simpa using hlen
    subst htl
    have hw1 : 0 < w1 := hpos w1 (by rw [hl]; simp)
    simp [discWeights, hl, hw1]

/-- Closed instance of `c9_softmin_weight_bug` with the softmin stub
`[2/3, 1/3]`. -/
theorem c9_softmin_weight_bug_witness :
    (discWeights (fun _ => [2/3, 1/3]) [1, 2] [0, 1]).getD 0 0
      < (discWeights (fun _ => [2/3, 1/3]) [1, 2] [0, 1]).getD 1 0 :=
  c9_softmin_weight_bug (fun _ => [2/3, 1/3]) (by norm_num)
    (by intro w hw; simp at hw; rcases hw with h | h <;> norm_num [h])

/-!
### The synchronized round of the parallel coordinator
(dgapn/train.py, `train_gpu_sync`)

Each round of the inner `while` loop enqueues one task per not-done slot
(line 233) and one reset task — or a no-op filler once the sample budget is
met — per done slot (lines 241-245), performs the blocking `tasks.join()`
(line 246), then consumes exactly `args.nb_procs` results (lines 248-261),
classifying each by the slot index and done flag carried in the message.
-/

/-- A message on the result channel (`Worker.run` output):
`(index, state, candidates, done)`; the dummy result is
`(None, None, None, True)`, modelled with `index = none`. -/
structure RResult (σ : Type) where
  index : Option Nat
  state : Option σ
  cands : List σ
  done : Bool

/-- A message on the task channel: `None` is the poison pill, otherwise the
triple `(index, state, done)`. -/
inductive RTask (σ : Type) where
  | kill
  | cmd (index : Option Nat) (state : Option σ) (done : Bool)

/-- The commands enqueued in one round of `train_gpu_sync` (lines 232-245):
one step command per not-done slot carrying the chosen candidate, and per
done slot either a reset command or, once `sample_count` has reached
`update_timesteps`, the dummy filler `(None, None, True)`. -/
def roundTasks {σ : Type} (notdone_idx : List Nat) (chosen : Nat → σ)
    (done_idx : List (Option Nat)) (sample_count update_timesteps : Nat) : List (RTask σ) :=
  notdone_idx.map (fun idx => RTask.cmd (some idx) (some (chosen idx)) false)
    ++ done_idx.map (fun idx =>
        if update_timesteps ≤ sample_count then RTask.cmd none none true
        else RTask.cmd idx none true)

/-- The first-round unpacking (lines 205-215) appends every received result's
index to `notdone_idx`. -/
def initNotdoneIdx {σ : Type} (res : List (RResult σ)) : List (Option Nat) :=
  res.map (fun r => r.index)

/-- The per-round accumulator of the result-unpacking loop (lines 248-261). -/
structure Unpacked (σ : Type) where
  states : List (Option σ)
  new_done_idx : List (Option Nat)
  new_notdone_idx : List (Option Nat)
  candidates : List (List σ)
  batch_idx : List (Option Nat)

/-- Processing of a single result message (lines 251-261): the state array is
written at the index carried in the message (when not `None`), and the index
is appended to `new_done_idx` or `new_notdone_idx` according to the done
flag, with candidates and the batch membership extended for live slots. -/
def unpackStep {σ : Type} (u : Unpacked σ) (r : RResult σ) : Unpacked σ :=
  { states := match r.index with
      | some i => u.states.set i r.state
      | none => u.states
    new_done_idx := if r.done then u.new_done_idx ++ [r.index] else u.new_done_idx
    new_notdone_idx := if r.done then u.new_notdone_idx else u.new_notdone_idx ++ [r.index]
    candidates := if r.done then u.candidates else u.candidates ++ [r.cands]
    batch_idx := if r.done then u.batch_idx
      else u.batch_idx ++ List.replicate r.cands.length r.index }

/-- The result-unpacking loop `for i in range(args.nb_procs): results.get()`
(lines 248-261): exactly the given results are consumed, starting from a
fresh length-`W` state array. -/
def unpackResults {σ : Type} (W : Nat) (res : List (RResult σ)) : Unpacked σ :=
  res.foldl unpackStep ⟨List.replicate W none, [], [], [], []⟩

/-- The two index lists produced by the unpacking loop are exactly the
indices of the done and not-done results, in arrival order. -/
theorem unpack_partition {σ : Type} (res : List (RResult σ)) (u : Unpacked σ) :
    (res.foldl unpackStep u).new_done_idx
        = u.new_done_idx ++ (res.filter (fun r => r.done)).map (fun r => r.index)
    ∧ (res.foldl unpackStep u).new_notdone_idx
        = u.new_notdone_idx ++ (res.filter (fun r => !r.done)).map (fun r => r.index) := by
  induction res generalizing u with
  | nil => simp
  | cons r rs ih =>
    simp only [List.foldl_cons]
    obtain ⟨ih1, ih2⟩ := ih (unpackStep u r)
    by_cases hd : r.done
    · rw [List.filter_cons, List.filter_cons]
      simp only [hd]
      refine ⟨?_, ?_⟩
      · rw [ih1]; simp [unpackStep, hd]
      · rw [ih2]; simp [unpackStep, hd]
    · rw [List.filter_cons, List.filter_cons]
      simp only [hd]
      refine ⟨?_, ?_⟩
      · rw [ih1]; simp [unpackStep, hd]
      · rw [ih2]; simp [unpackStep, hd]

/-- A filter and its complementary filter partition a list's length. -/
theorem filter_length_partition {α : Type} (l : List α) (p : α → Bool) :
    (l.filter p).length + (l.filter (fun x => !p x)).length = l.length := by
  induction l with
  | nil => simp
  | cons x xs ih =>
    by_cases h : p x <;> simp [List.filter_cons, h, ← ih] <;> omega

/-- C2.  Round synchronization of `train_gpu_sync`: when the slot partition
covers the `W` worker slots, exactly `W` commands are enqueued; the
unpacking loop consumes exactly the `W` results of the round and classifies
every one of them (done plus not-done counts sum to `W`), keeping the slot
index carried in each message; a result writes the state array only at its
own index and at no other position; and on the first round every result's
index is registered, so the partition invariant holds from the start. -/
theorem c2_round_synchronization {σ : Type} (notdone_idx : List Nat) (chosen : Nat → σ)
    (done_idx : List (Option Nat)) (sample_count update_timesteps W : Nat)
    (res : List (RResult σ))
    (hW : notdone_idx.length + done_idx.length = W) (hres : res.length = W) :
    (roundTasks notdone_idx chosen done_idx sample_count update_timesteps).length = W
    ∧ (unpackResults W res).new_done_idx.length
        + (unpackResults W res).new_notdone_idx.length = W
    ∧ (unpackResults W res).new_done_idx
        = (res.filter (fun r => r.done)).map (fun r => r.index)
    ∧ (unpackResults W res).new_notdone_idx
        = (res.filter (fun r => !r.done)).map (fun r => r.index)
    ∧ (∀ (u : Unpacked σ) (r : RResult σ) (i : Nat), r.index = some i →
        (unpackStep u r).states = u.states.set i r.state)
    ∧ (∀ (u : Unpacked σ) (r : RResult σ) (i j : Nat), r.index = some i → j ≠ i →
        (unpackStep u r).states.get? j = u.states.get? j)
    ∧ (initNotdoneIdx res).length = W := by
  obtain ⟨h1, h2⟩ := unpack_partition res
    (⟨List.replicate W none, [], [], [], []⟩ : Unpacked σ)
  refine ⟨?_, ?_, ?_, ?_, ?_, ?_, ?_⟩
  · simp [roundTasks, hW]
  · unfold unpackResults
    rw [h1, h2]
    simp only [List.nil_append, List.length_map]
    rw [filter_length_partition res (fun r => r.done), hres]
  · unfold unpackResults; rw [h1]; simp
  · unfold unpackResults; rw [h2]; simp
  · intro u r i hi
    simp [unpackStep, hi]
  · intro u r i j hi hj
    simp only [unpackStep, hi, List.get?_eq_getElem?]
    exact List.getElem?_set_ne (fun he => hj he.symm)
  · simp [initNotdoneIdx, hres]

/-- Closed instance of `c2_round_synchronization` with `W = 2`, one live slot
and one done slot, and one done and one live result. -/
theorem c2_round_synchronization_witness :
    (roundTasks [0] (fun _ => (0 : ℚ)) [some 1] 0 5).length = 2
    ∧ (unpackResults 2 [⟨some 0, some (3 : ℚ), [4], true⟩,
          ⟨some 1, some 9, [5, 6], false⟩]).new_done_idx.length
        + (unpackResults 2 [⟨some 0, some (3 : ℚ), [4], true⟩,
            ⟨some 1, some 9, [5, 6], false⟩]).new_notdone_idx.length = 2
    ∧ (unpackResults 2 [⟨some 0, some (3 : ℚ), [4], true⟩,
          ⟨some 1, some 9, [5, 6], false⟩]).new_done_idx
        = (([⟨some 0, some (3 : ℚ), [4], true⟩, ⟨some 1, some 9, [5, 6], false⟩] :
            List (RResult ℚ)).filter (fun r => r.done)).map (fun r => r.index)
    ∧ (unpackResults 2 [⟨some 0, some (3 : ℚ), [4], true⟩,
          ⟨some 1, some 9, [5, 6], false⟩]).new_notdone_idx
        = (([⟨some 0, some (3 : ℚ), [4], true⟩, ⟨some 1, some 9, [5, 6], false⟩] :
            List (RResult ℚ)).filter (fun r => !r.done)).map (fun r => r.index)
    ∧ (∀ (u : Unpacked ℚ) (r : RResult ℚ) (i : Nat), r.index = some i →
        (unpackStep u r).states = u.states.set i r.state)
    ∧ (∀ (u : Unpacked ℚ) (r : RResult ℚ) (i j : Nat), r.index = some i → j ≠ i →
        (unpackStep u r).states.get? j = u.states.get? j)
    ∧ (initNotdoneIdx [⟨some 0, some (3 : ℚ), [4], true⟩,
          ⟨some 1, some 9, [5, 6], false⟩]).length = 2 :=
  c2_round_synchronization [0] (fun _ => (0 : ℚ)) [some 1] 0 5 2
    [⟨some 0, some (3 : ℚ), [4], true⟩, ⟨some 1, some 9, [5, 6], false⟩] rfl rfl

/-!
### Termination detection and reward timing (dgapn/train.py,
`train_gpu_sync`, lines 263-288)

`nowdone_idx` is the set of previously-live slots whose result in the
current round reports `done=true`; their just-computed main reward is
appended with terminal flag `True`.  `stillnotdone_idx` slots record reward
0 with terminal flag `False`.  Only the reward/terminal lists of the
per-slot memories are touched by this step, so the model carries exactly
those two lists per slot.
-/

/-- The reward/terminal part of one slot's `Memory` in `train_gpu_sync`. -/
structure SlotMem where
  rewards : List ℚ
  terminals : List Bool
deriving DecidableEq

/-- `nowdone_idx = [idx for idx in notdone_idx if idx in new_done_idx]`
(line 263). -/
def nowdoneIdx (notdone_idx : List Nat) (new_done_idx : List (Option Nat)) : List Nat :=
  notdone_idx.filter (fun idx => new_done_idx.contains (some idx))

/-- `stillnotdone_idx = [idx for idx in notdone_idx if idx in new_notdone_idx]`
(line 264). -/
def stillnotdoneIdx (notdone_idx : List Nat) (new_notdone_idx : List (Option Nat)) : List Nat :=
  notdone_idx.filter (fun idx => new_notdone_idx.contains (some idx))

/-- Append one reward/terminal pair to a single slot's memory
(`memories[idx].rewards.append(...)`, `memories[idx].terminals.append(...)`). -/
def slotAppend (ms : Nat → SlotMem) (idx : Nat) (rew : ℚ) (term : Bool) : Nat → SlotMem :=
  fun j => if j = idx
    then ⟨(ms idx).rewards ++ [rew], (ms idx).terminals ++ [term]⟩
    else ms j

/-- Lines 271-288: each just-terminated slot records the main reward computed
this round from its reported terminal state (`get_main_reward` on
`states[idx]`, modelled by `scoreFn` applied to `statesAfter idx`) with
terminal flag `True`; each still-live slot records reward 0 with terminal
flag `False`. -/
def appendRoundRewards {σ : Type} (ms : Nat → SlotMem) (nowdone stillnot : List Nat)
    (scoreFn : Option σ → ℚ) (statesAfter : Nat → Option σ) : Nat → SlotMem :=
  let ms1 := nowdone.foldl (fun m idx => slotAppend m idx (scoreFn (statesAfter idx)) true) ms
  stillnot.foldl (fun m idx => slotAppend m idx 0 false) ms1

/-- Slots outside the fold's index list are untouched. -/
theorem foldl_slotAppend_notmem (f : Nat → ℚ) (b : Bool) (l : List Nat) (ms : Nat → SlotMem)
    (j : Nat) (hj : j ∉ l) :
    (l.foldl (fun m idx => slotAppend m idx (f idx) b) ms) j = ms j := by
  induction l generalizing ms with
  | nil => rfl
  | cons x xs ih =>
    simp only [List.foldl_cons]
    rw [ih _ (fun h => hj (List.mem_cons_of_mem x h))]
    have hne : j ≠ x := fun he => hj (he ▸ List.mem_cons_self x xs)
    simp [slotAppend, hne]

/-- A slot listed once (the list has no duplicates) receives exactly one
appended pair. -/
theorem foldl_slotAppend_mem (f : Nat → ℚ) (b : Bool) (l : List Nat) (ms : Nat → SlotMem)
    (j : Nat) (hj : j ∈ l) (hnd : l.Nodup) :
    (l.foldl (fun m idx => slotAppend m idx (f idx) b) ms) j
      = ⟨(ms j).rewards ++ [f j], (ms j).terminals ++ [b]⟩ := by
  induction l generalizing ms with
  | nil => simp at hj
  | cons x xs ih =>
    simp only [List.foldl_cons]
    rcases List.mem_cons.mp hj with h | h
    · subst h
      have hx : j ∉ xs := (List.nodup_cons.mp hnd).1
      rw [foldl_slotAppend_notmem f b xs _ j hx]
      simp [slotAppend]
    · have hne : j ≠ x := fun he => (List.nodup_cons.mp hnd).1 (he ▸ h)
      rw [ih _ h (List.nodup_cons.mp hnd).2]
      simp [slotAppend, hne]

/-- C5.  Termination detection in `train_gpu_sync`: a slot is in
`nowdone_idx` exactly when it was live in the previous round and the
subsequent round's result reports `done=true`; such a slot's memory receives
the main reward of its state reported this round, with terminal flag `True`,
computed exactly at the transition round; a still-live slot records reward 0
with terminal flag `False`; and a slot that was not live is untouched (no
speculative reward). -/
theorem c5_termination_detection {σ : Type} (notdone_idx : List Nat)
    (new_done new_notdone : List (Option Nat)) (ms : Nat → SlotMem)
    (scoreFn : Option σ → ℚ) (statesAfter : Nat → Option σ)
    (hnd : notdone_idx.Nodup)
    (hpart : ∀ i : Nat, ¬(new_done.contains (some i) ∧ new_notdone.contains (some i))) :
    (∀ idx, idx ∈ nowdoneIdx notdone_idx new_done
        ↔ idx ∈ notdone_idx ∧ (some idx) ∈ new_done)
    ∧ (∀ idx ∈ nowdoneIdx notdone_idx new_done,
        appendRoundRewards ms (nowdoneIdx notdone_idx new_done)
            (stillnotdoneIdx notdone_idx new_notdone) scoreFn statesAfter idx
          = ⟨(ms idx).rewards ++ [scoreFn (statesAfter idx)], (ms idx).terminals ++ [true]⟩)
    ∧ (∀ idx ∈ stillnotdoneIdx notdone_idx new_notdone,
        appendRoundRewards ms (nowdoneIdx notdone_idx new_done)
            (stillnotdoneIdx notdone_idx new_notdone) scoreFn statesAfter idx
          = ⟨(ms idx).rewards ++ [0], (ms idx).terminals ++ [false]⟩)
    ∧ (∀ idx, idx ∉ notdone_idx →
        appendRoundRewards ms (nowdoneIdx notdone_idx new_done)
            (stillnotdoneIdx notdone_idx new_notdone) scoreFn statesAfter idx = ms idx) := by
  have hmemnow : ∀ idx, idx ∈ nowdoneIdx notdone_idx new_done
      ↔ idx ∈ notdone_idx ∧ (some idx) ∈ new_done := by
    intro idx
    simp [nowdoneIdx, List.mem_filter]
  have hmemstill : ∀ idx, idx ∈ stillnotdoneIdx notdone_idx new_notdone
      ↔ idx ∈ notdone_idx ∧ (some idx) ∈ new_notdone := by
    intro idx
    simp [stillnotdoneIdx, List.mem_filter]
  have hndnow : (nowdoneIdx notdone_idx new_done).Nodup := List.Nodup.filter _ hnd
  have hdisj : ∀ idx, idx ∈ nowdoneIdx notdone_idx new_done →
      idx ∉ stillnotdoneIdx notdone_idx new_notdone := by
    intro idx hd1 hd2
    exact hpart idx ⟨by simpa using ((hmemnow idx).mp hd1).2,
                    by simpa using ((hmemstill idx).mp hd2).2⟩
  refine ⟨hmemnow, ?_, ?_, ?_⟩
  · intro idx hidx
    unfold appendRoundRewards
    rw [foldl_slotAppend_notmem (fun _ => 0) false _ _ idx (hdisj idx hidx)]
    exact foldl_slotAppend_mem _ true _ ms idx hidx hndnow
  · intro idx hidx
    unfold appendRoundRewards
    have hnot : idx ∉ nowdoneIdx notdone_idx new_done := fun h => hdisj idx h hidx
    rw [foldl_slotAppend_mem (fun _ => 0) false _ _ idx hidx (List.Nodup.filter _ hnd)]
    rw [foldl_slotAppend_notmem _ true _ ms idx hnot]
  · intro idx hidx
    unfold appendRoundRewards
    have hn1 : idx ∉ nowdoneIdx notdone_idx new_done :=
      fun h => hidx ((hmemnow idx).mp h).1
    have hn2 : idx ∉ stillnotdoneIdx notdone_idx new_notdone :=
      fun h => hidx ((hmemstill idx).mp h).1
    rw [foldl_slotAppend_notmem (fun _ => 0) false _ _ idx hn2]
    exact foldl_slotAppend_notmem _ true _ ms idx hn1

/-- Closed instance of `c5_termination_detection`: slots `[0, 1]` were live,
slot 0 terminates this round, slot 1 stays live. -/
theorem c5_termination_detection_witness :
    (∀ idx, idx ∈ nowdoneIdx [0, 1] [some 0]
        ↔ idx ∈ [0, 1] ∧ (some idx) ∈ [some 0])
    ∧ (∀ idx ∈ nowdoneIdx [0, 1] [some 0],
        appendRoundRewards (fun _ => ⟨[], []⟩) (nowdoneIdx [0, 1] [some 0])
            (stillnotdoneIdx [0, 1] [some 1]) (fun _ => (7 : ℚ))
            (fun _ => some (1 : ℚ)) idx
          = ⟨((fun _ => (⟨[], []⟩ : SlotMem)) idx).rewards
                ++ [(fun _ => (7 : ℚ)) ((fun _ => some (1 : ℚ)) idx)],
             ((fun _ => (⟨[], []⟩ : SlotMem)) idx).terminals ++ [true]⟩)
    ∧ (∀ idx ∈ stillnotdoneIdx [0, 1] [some 1],
        appendRoundRewards (fun _ => ⟨[], []⟩) (nowdoneIdx [0, 1] [some 0])
            (stillnotdoneIdx [0, 1] [some 1]) (fun _ => (7 : ℚ))
            (fun _ => some (1 : ℚ)) idx
          = ⟨((fun _ => (⟨[], []⟩ : SlotMem)) idx).rewards ++ [0],
             ((fun _ => (⟨[], []⟩ : SlotMem)) idx).terminals ++ [false]⟩)
    ∧ (∀ idx, idx ∉ [0, 1] →
        appendRoundRewards (fun _ => ⟨[], []⟩) (nowdoneIdx [0, 1] [some 0])
            (stillnotdoneIdx [0, 1] [some 1]) (fun _ => (7 : ℚ))
            (fun _ => some (1 : ℚ)) idx = (fun _ => (⟨[], []⟩ : SlotMem)) idx) :=
  c5_termination_detection [0, 1] [some 0] [some 1] (fun _ => ⟨[], []⟩)
    (fun _ => (7 : ℚ)) (fun _ => some (1 : ℚ)) (by decide)
    (by intro i h; simp at h; omega)

/-!
### Innovation reward (dgapn/train.py, `train_gpu_sync`, lines 289-305)

When `args.iota > 0` and the episode count lies strictly inside the
configured window, `model.get_inno_reward` is called on the batch
`[states[idx] for idx in notdone_idx]` — where `states` is the array just
refilled from THIS round's results (line 248), not the array that was used
for the round's action selection (lines 219-221) — and
`memories[idx].rewards[-1] += args.iota * inno_rewards[i]` is applied to
every slot of `notdone_idx`, including the slots that just terminated.
-/

/-- The state batch used for the action-selection call of the round
(lines 219-221): the pre-step states of the previously-live slots. -/
def selectionBatch {σ : Type} (statesBefore : Nat → Option σ) (notdone_idx : List Nat) :
    List (Option σ) :=
  notdone_idx.map statesBefore

/-- The state batch passed to `model.get_inno_reward` (lines 293-296): the
post-step states reported by this round's results. -/
def innoBatch {σ : Type} (statesAfter : Nat → Option σ) (notdone_idx : List Nat) :
    List (Option σ) :=
  notdone_idx.map statesAfter

/-- `memories[idx].rewards[-1] += x`: add to the last element of a list
(a slot reached by the innovation step has just had a reward appended, so
the list is non-empty there; the empty case is vacuous padding). -/
def addToLast : List ℚ → ℚ → List ℚ
  | [], _ => []
  | [a], x => [a + x]
  | a :: b :: rest, x => a :: addToLast (b :: rest) x

/-- The episode-window gate of lines 290-292:
`args.iota > 0 and i_episode > delay and i_episode < cutoff`. -/
def innoGate (iota : ℚ) (i_episode delay cutoff : Nat) : Bool :=
  decide (0 < iota) && decide (delay < i_episode) && decide (i_episode < cutoff)

/-- The `for i, idx in enumerate(notdone_idx)` loop of lines 300-305: each
pair `(idx, score)` adds `iota * score` to the last recorded reward of slot
`idx`. -/
def innoApply (iota : ℚ) (ms : Nat → SlotMem) (pairs : List (Nat × ℚ)) : Nat → SlotMem :=
  pairs.foldl (fun m p => fun j =>
    if j = p.1 then ⟨addToLast (m p.1).rewards (iota * p.2), (m p.1).terminals⟩ else m j) ms

/-- The whole innovation-reward step of lines 289-305: when the window is
active, score the post-step states of the previously-live slots and add the
scaled scores to those slots' last recorded rewards. -/
def innoStep {σ : Type} (iota : ℚ) (i_episode delay cutoff : Nat)
    (innoScore : List (Option σ) → List ℚ) (statesAfter : Nat → Option σ)
    (notdone_idx : List Nat) (ms : Nat → SlotMem) : Nat → SlotMem :=
  if innoGate iota i_episode delay cutoff then
    innoApply iota ms (notdone_idx.zip (innoScore (innoBatch statesAfter notdone_idx)))
  else ms

/-- Unfolding one step of the innovation loop. -/
theorem innoApply_cons (iota : ℚ) (ms : Nat → SlotMem) (p : Nat × ℚ) (ps : List (Nat × ℚ)) :
    innoApply iota ms (p :: ps)
      = innoApply iota (fun j =>
          if j = p.1 then ⟨addToLast (ms p.1).rewards (iota * p.2), (ms p.1).terminals⟩
          else ms j) ps := rfl

/-- Slots not named by any pair are untouched by the innovation loop. -/
theorem innoApply_notmem (iota : ℚ) (pairs : List (Nat × ℚ)) (ms : Nat → SlotMem) (j : Nat)
    (hj : ∀ p ∈ pairs, j ≠ p.1) :
    innoApply iota ms pairs j = ms j := by
  induction pairs generalizing ms with
  | nil => rfl
  | cons p ps ih =>
    rw [innoApply_cons]
    rw [ih _ (fun q hq => hj q (List.mem_cons_of_mem p hq))]
    simp [hj p (List.mem_cons_self p ps)]

/-- A slot named by exactly one pair receives exactly that pair's scaled
score on its last reward. -/
theorem innoApply_mem (iota : ℚ) (pairs : List (Nat × ℚ)) (ms : Nat → SlotMem)
    (k : Nat) (hk : k < pairs.length) (hnd : (pairs.map Prod.fst).Nodup) :
    innoApply iota ms pairs (pairs[k].1)
      = ⟨addToLast (ms (pairs[k].1)).rewards (iota * pairs[k].2),
         (ms (pairs[k].1)).terminals⟩ := by
  induction pairs generalizing ms k with
  | nil => simp at hk
  | cons p ps ih =>
    rw [innoApply_cons]
    have hndtail : (ps.map Prod.fst).Nodup := (List.nodup_cons.mp hnd).2
    have hhead : p.1 ∉ ps.map Prod.fst := (List.nodup_cons.mp hnd).1
    cases k with
    | zero =>
      simp only [List.getElem_cons_zero]
      rw [innoApply_notmem iota ps _ p.1
        (fun q hq heq => hhead (List.mem_map.mpr ⟨q, hq, heq.symm⟩))]
      simp
    | succ n =>
      have hn : n < ps.length := by simpa using hk
      simp only [List.getElem_cons_succ]
      have hne : ps[n].1 ≠ p.1 := by
        intro he
        exact hhead (he ▸ List.mem_map.mpr ⟨ps[n], List.getElem_mem hn, rfl⟩)
      rw [ih _ n hn hndtail]
      simp [hne]

/-- C7 counterexample.  A concrete round in which slot 0, previously live,
just terminated (its freshly appended memory entry is terminal) and its
post-step state differs from the state used for action selection: the
innovation batch is not the selection batch, and the innovation reward is
nevertheless added to the just-terminated slot's last (terminal) reward —
so the claim that the reward goes to exactly the non-terminal slots over the
selection-time states is false on this input. -/
theorem c7_innovation_counterexample :
    innoBatch (fun _ => some (42 : ℚ)) [0] ≠ selectionBatch (fun _ => some (41 : ℚ)) [0]
    ∧ (⟨[7], [true]⟩ : SlotMem).terminals.getLast? = some true
    ∧ @innoStep ℚ 1 5 1 10 (fun l => l.map (fun _ => 1)) (fun _ => some 42) [0]
        (fun _ => ⟨[7], [true]⟩) 0 ≠ (⟨[7], [true]⟩ : SlotMem) := by
  refine ⟨by simp [innoBatch, selectionBatch], rfl, ?_⟩
  simp only [innoStep, innoGate, innoApply, innoBatch, addToLast]
  norm_num
  intro h
  simp [SlotMem.mk.injEq, addToLast] at h

/-- C7 amended.  When the episode window is active, the innovation reward is
added to the last recorded reward of every slot that was live entering the
round — including slots whose entry this round is terminal — scaled from the
novelty scores of the post-step states reported by this round's results;
slots outside that set are untouched, and when the window is inactive
nothing changes. -/
theorem c7_innovation_amended {σ : Type} (iota : ℚ) (i_episode delay cutoff : Nat)
    (innoScore : List (Option σ) → List ℚ) (statesAfter : Nat → Option σ)
    (notdone_idx : List Nat) (ms : Nat → SlotMem)
    (hnd : notdone_idx.Nodup)
    (hlen : notdone_idx.length ≤ (innoScore (innoBatch statesAfter notdone_idx)).length)
    (hgate : innoGate iota i_episode delay cutoff = true) :
    (∀ (k : Nat)
        (hk : k < (notdone_idx.zip (innoScore (innoBatch statesAfter notdone_idx))).length),
        innoStep iota i_episode delay cutoff innoScore statesAfter notdone_idx ms
            ((notdone_idx.zip (innoScore (innoBatch statesAfter notdone_idx)))[k].1)
          = ⟨addToLast
               (ms ((notdone_idx.zip
                  (innoScore (innoBatch statesAfter notdone_idx)))[k].1)).rewards
               (iota * (notdone_idx.zip (innoScore (innoBatch statesAfter notdone_idx)))[k].2),
             (ms ((notdone_idx.zip
                (innoScore (innoBatch statesAfter notdone_idx)))[k].1)).terminals⟩)
    ∧ (∀ j, j ∉ notdone_idx →
        innoStep iota i_episode delay cutoff innoScore statesAfter notdone_idx ms j = ms j)
    ∧ (∀ (gi : ℚ) (e d c : Nat), innoGate gi e d c = false →
        innoStep gi e d c innoScore statesAfter notdone_idx ms = ms) := by
  have hfst : ((notdone_idx.zip (innoScore (innoBatch statesAfter notdone_idx))).map
      Prod.fst) = notdone_idx := List.map_fst_zip _ _ hlen
  refine ⟨?_, ?_, ?_⟩
  · intro k hk
    unfold innoStep
    rw [if_pos hgate]
    exact innoApply_mem iota _ ms k hk (by rw [hfst]; exact hnd)
  · intro j hj
    unfold innoStep
    rw [if_pos hgate]
    apply innoApply_notmem
    intro p hp heq
    exact hj (by
      rw [← hfst]
      exact List.mem_map.mpr ⟨p, hp, heq.symm⟩)
  · intro gi e d c hg
    unfold innoStep
    rw [if_neg (by simp [hg])]

/-- Closed instance of `c7_innovation_amended` with one live slot, constant
novelty score 2 and `iota = 1` inside the window. -/
theorem c7_innovation_amended_witness :
    (∀ (k : Nat)
        (hk : k < (([0] : List Nat).zip ((fun l : List (Option ℚ) =>
          l.map (fun _ => (2 : ℚ))) (innoBatch (fun _ => some (3 : ℚ)) [0]))).length),
        innoStep 1 5 1 10 (fun l => l.map (fun _ => (2 : ℚ))) (fun _ => some (3 : ℚ)) [0]
            (fun _ => ⟨[1], [false]⟩)
            ((([0] : List Nat).zip ((fun l : List (Option ℚ) =>
              l.map (fun _ => (2 : ℚ))) (innoBatch (fun _ => some (3 : ℚ)) [0])))[k].1)
          = ⟨addToLast
               ((fun _ => (⟨[1], [false]⟩ : SlotMem)) ((([0] : List Nat).zip
                  ((fun l : List (Option ℚ) => l.map (fun _ => (2 : ℚ)))
                    (innoBatch (fun _ => some (3 : ℚ)) [0])))[k].1)).rewards
               (1 * (([0] : List Nat).zip ((fun l : List (Option ℚ) =>
                  l.map (fun _ => (2 : ℚ))) (innoBatch (fun _ => some (3 : ℚ)) [0])))[k].2),
             ((fun _ => (⟨[1], [false]⟩ : SlotMem)) ((([0] : List Nat).zip
                ((fun l : List (Option ℚ) => l.map (fun _ => (2 : ℚ)))
                  (innoBatch (fun _ => some (3 : ℚ)) [0])))[k].1)).terminals⟩)
    ∧ (∀ j, j ∉ ([0] : List Nat) →
        innoStep 1 5 1 10 (fun l => l.map (fun _ => (2 : ℚ))) (fun _ => some (3 : ℚ)) [0]
            (fun _ => ⟨[1], [false]⟩) j = (fun _ => (⟨[1], [false]⟩ : SlotMem)) j)
    ∧ (∀ (gi : ℚ) (e d c : Nat), innoGate gi e d c = false →
        innoStep gi e d c (fun l => l.map (fun _ => (2 : ℚ))) (fun _ => some (3 : ℚ)) [0]
            (fun _ => ⟨[1], [false]⟩) = (fun _ => (⟨[1], [false]⟩ : SlotMem))) :=
  c7_innovation_amended 1 5 1 10 (fun l => l.map (fun _ => (2 : ℚ)))
    (fun _ => some (3 : ℚ)) [0] (fun _ => ⟨[1], [false]⟩) (by decide)
    (by simp [innoBatch]) (by simp [innoGate])

end ExaLearnMol
